import Mathlib
/-
Verification of the icepyx nested-variable path selector ("Variables" module).
The supplied sources contain only the tutorial notebooks that document and
exercise the selector; the selector implementation itself is not among them,
so every operational definition below is modelled from the specification's
words (see the individual doc comments).
-/
namespace Icepyx
/-- Modelled from the spec: the segment delimiter of a Path string. -/
def slash : Char := '/'
/-- Modelled from the spec: split a character sequence at every delimiter,
yielding the (always nonempty) sequence of segments. -/
def splitSegs : List Char → List (List Char)
  | [] => [[]]
  | c :: rest =>
    match splitSegs rest with
    | [] => [[]]
    | s :: ss => if c = slash then [] :: s :: ss else (c :: s) :: ss
/-- Modelled from the spec: rejoin segments with the delimiter. -/
def joinSegs : List (List Char) → List Char
  | [] => []
  | [s] => s
  | s :: t :: ss => s ++ slash :: joinSegs (t :: ss)
/-- Modelled from the spec: the ordered segments of a Path string. -/
def segsOf (p : String) : List String :=
  (splitSegs p.data).map fun cs => String.mk cs
/-- Modelled from the spec: rejoin a list of segments into a Path string. -/
def joinPath (ss : List String) : String :=
  String.mk (joinSegs (ss.map String.data))
/-- Modelled from the spec: the variable name is the final segment of a Path. -/
def varName (p : String) : String :=
  (segsOf p).getLastD (String.mk [])
/-- Modelled from the spec: the keyword segments are all non-final segments
of a Path (possibly including a beam/profile identifier). -/
def kwSegs (p : String) : List String :=
  (segsOf p).dropLast
/-- Add one element to a list unless it is already present (order-preserving,
duplicate-free union step). -/
def insertUniq {α : Type} [DecidableEq α] (w : List α) (p : α) : List α :=
  if p ∈ w then w else w ++ [p]
/-- Union a list of new elements into a list, keeping first-occurrence order
and never introducing duplicates. -/
def addAll {α : Type} [DecidableEq α] (w ns : List α) : List α :=
  ns.foldl insertUniq w
/-- Deduplicate a list keeping the first occurrence of each element. -/
def firstDedup {α : Type} [DecidableEq α] (xs : List α) : List α :=
  addAll [] xs
/-- Modelled from the spec: a Filter is a triple of optional criteria —
variable names, beam/profile identifiers, keyword segments — plus a
defaults flag selecting a product-specific canned list.  Beam identifiers
and keyword segments form one matching category. -/
structure Filter where
  var_list : Option (List String)
  beam_list : Option (List String)
  keyword_list : Option (List String)
  defaults : Bool
deriving DecidableEq
/-- Modelled from the spec: the combined keyword/beam criteria category of a
filter (beam/profile identifiers are keyword segments). -/
def kwCriteria (f : Filter) : Option (List String) :=
  match f.beam_list, f.keyword_list with
  | none, none => none
  | some bs, none => some bs
  | none, some ks => some ks
  | some bs, some ks => some (bs ++ ks)
/-- Modelled from the spec: a Path satisfies the variable-name criterion when
its final segment equals one of the listed variable names (OR within the
category). -/
def varMatch (vs : List String) (p : String) : Bool :=
  vs.any fun v => decide (varName p = v)
/-- Modelled from the spec: a Path satisfies the keyword/beam criterion when
it contains at least one of the listed segments (OR within the category). -/
def segMatch (ks : List String) (p : String) : Bool :=
  ks.any fun k => decide (k ∈ segsOf p)
/-- Modelled from the spec: a Path matches a filter when it satisfies every
supplied criteria category (AND across categories); with no criteria
supplied nothing matches. -/
def pathMatch (f : Filter) (p : String) : Bool :=
  match f.var_list, kwCriteria f with
  | none, none => false
  | some vs, none => varMatch vs p
  | none, some ks => segMatch ks p
  | some vs, some ks => varMatch vs p && segMatch ks p
/-- The empty string. -/
def emptyStr : String := String.mk []
/-- Modelled from the spec: the deliberate "help" probe — an empty string as
the sole element of keyword_list — is the invalid filter append rejects. -/
def isInvalid (f : Filter) : Bool :=
  decide (f.keyword_list = some [emptyStr])
/-- Modelled from the spec: the InvalidFilter error condition, carrying the
enumeration of every valid keyword/beam segment available in the Catalog. -/
inductive VarError where
  | invalidFilter (validOptions : List String)
deriving DecidableEq
/-- Modelled from the spec: the selector state — an immutable Catalog of
available Paths (avail), the mutable Wanted set, the fixed mandatory paths
automatically added to any built list, and the product's canned defaults
list. -/
structure Variables where
  avail : List String
  wanted : List String
  mandatory : List String
  canned : List String
deriving DecidableEq
/-- Modelled from the spec: every keyword/beam segment available in the
Catalog, deduplicated — the enumeration shown by the empty-keyword probe. -/
def catKwSegs (s : Variables) : List String :=
  firstDedup ((s.avail.map kwSegs).flatten)
/-- Modelled from the spec: append computes the subset of the Catalog
matching the filter and unions it (together with the mandatory paths, and
the canned defaults list when the defaults flag is set) into Wanted; the
empty-keyword probe instead fails with InvalidFilter, listing every valid
keyword/beam segment, without mutating Wanted. -/
def appendVars (f : Filter) (s : Variables) : Variables × Option VarError :=
  if isInvalid f then
    (s, some (VarError.invalidFilter (catKwSegs s)))
  else
    let ns := s.mandatory ++ (if f.defaults then s.canned else []) ++
      s.avail.filter (pathMatch f)
    ({ s with wanted := addAll s.wanted ns }, none)
/-- Modelled from the spec: whether remove targets a given Path — it is in
the same matching subset append computes (including the canned defaults list
when the defaults flag is set). -/
def toRemove (f : Filter) (s : Variables) (p : String) : Bool :=
  pathMatch f p || (f.defaults && decide (p ∈ s.canned))
/-- Modelled from the spec: remove is symmetric to append — it computes the
same matching subset and subtracts it from Wanted; with the all flag it
resets Wanted to empty; the empty-keyword probe fails without mutation. -/
def removeVars (a : Bool) (f : Filter) (s : Variables) :
    Variables × Option VarError :=
  if a then
    ({ s with wanted := [] }, none)
  else if isInvalid f then
    (s, some (VarError.invalidFilter (catKwSegs s)))
  else
    ({ s with wanted := s.wanted.filter fun p => !(toRemove f s p) }, none)
/-- Modelled from the spec: one selector operation — append, remove, or the
read-only avail / parse queries. -/
inductive Op where
  | appendOp (f : Filter)
  | removeOp (a : Bool) (f : Filter)
  | availOp (options : Bool)
  | parseOp (paths : List String)
deriving DecidableEq
/-- Modelled from the spec: the state transition of one selector operation
(avail and parse are pure queries and do not mutate state). -/
def step (o : Op) (s : Variables) : Variables :=
  match o with
  | Op.appendOp f => (appendVars f s).1
  | Op.removeOp a f => (removeVars a f s).1
  | Op.availOp _ => s
  | Op.parseOp _ => s
/-- Run a sequence of selector operations from an initial state. -/
def run : List Op → Variables → Variables
  | [], s => s
  | o :: rest, s => run rest (step o s)
/-- Modelled from the spec: the recognized beam/profile identifier segments
(ground-track and profile naming patterns). -/
def beamNames : List String :=
  [r"gt1l", r"gt1r", r"gt2l", r"gt2r", r"gt3l", r"gt3r",
   r"profile_1", r"profile_2", r"profile_3"]
/-- Modelled from the spec: whether a segment matches the recognized
beam/profile naming pattern (distinguished from generic keywords). -/
def isBeam (seg : String) : Bool :=
  decide (seg ∈ beamNames)
/-- Modelled from the spec: avail without options returns the Catalog as a
flat ordered sequence of Path strings. -/
def availList (s : Variables) : List String := s.avail
/-- Modelled from the spec: all variable names present across the Catalog,
deduplicated. -/
def varSetOf (s : Variables) : List String :=
  firstDedup (s.avail.map varName)
/-- Modelled from the spec: all generic (non-beam) keyword segments present
across the Catalog, deduplicated. -/
def kwdSetOf (s : Variables) : List String :=
  firstDedup (((s.avail.map kwSegs).flatten).filter fun k => !(isBeam k))
/-- Modelled from the spec: all beam/profile-identifier segments present
across the Catalog, deduplicated. -/
def beamSetOf (s : Variables) : List String :=
  firstDedup (((s.avail.map kwSegs).flatten).filter isBeam)
/-- Modelled from the spec: avail with options returns the three
deduplicated sets — variable names, keyword segments, beam segments. -/
def availOptions (s : Variables) : List String × List String × List String :=
  (varSetOf s, kwdSetOf s, beamSetOf s)
/-- Modelled from the spec: group one more Path into a name-to-paths
mapping, appending to the entry of its variable name or creating a new
entry at the end. -/
def insertGrouped (acc : List (String × List String)) (p : String) :
    List (String × List String) :=
  if varName p ∈ acc.map Prod.fst then
    acc.map fun e => if e.1 = varName p then (e.1, e.2 ++ [p]) else e
  else acc ++ [(varName p, [p])]
/-- Modelled from the spec: parse groups a sequence of Path strings by
final segment, producing a mapping from variable name to the ordered list
of full Paths ending in that name. -/
def parse_var_list (paths : List String) : List (String × List String) :=
  paths.foldl insertGrouped []
/-- Declarative description of the grouping parse performs: one entry per
distinct variable name in first-occurrence order, carrying the ordered
sublist of input Paths ending in that name. -/
def groupedSpec (paths : List String) : List (String × List String) :=
  (firstDedup (paths.map varName)).map fun n =>
    (n, paths.filter fun p => decide (varName p = n))

/-- Example Path from the spec's test catalog. -/
def pGt1lLat : String := "gt1l/land_ice_segments/latitude"

/-- Example Path from the spec's test catalog. -/
def pGt1lLon : String := "gt1l/land_ice_segments/longitude"

/-- Example Path from the spec's test catalog. -/
def pGt2lLat : String := "gt2l/land_ice_segments/latitude"

/-- Example mandatory path (spacecraft orientation metadata). -/
def pOrient : String := "orbit_info/sc_orient"

/-- Example variable name. -/
def latName : String := "latitude"

/-- Example beam identifier. -/
def gt1lName : String := "gt1l"

/-- The spec's three-path example catalog. -/
def exCatalog : List String := [pGt1lLat, pGt1lLon, pGt2lLat]

/-- Example selector over the three-path catalog, with empty Wanted set and
no mandatory or canned paths. -/
def exSel : Variables := Variables.mk exCatalog [] [] []

/-- The spec's example filter: var_list latitude together with beam_list
gt1l. -/
def exFilter : Filter := Filter.mk (some [latName]) (some [gt1lName]) none false

/-- The empty-keyword help probe filter. -/
def probeFilter : Filter := Filter.mk none none (some [emptyStr]) false

/-- A filter with no criteria at all. -/
def noFilter : Filter := Filter.mk none none none false

/-- Counterexample selector: Wanted already holds a latitude path. -/
def cexSel : Variables := Variables.mk exCatalog [pGt1lLat] [] []

/-- Counterexample filter: var_list latitude alone. -/
def cexFilter : Filter := Filter.mk (some [latName]) none none false

/-- Witness selector: Wanted holds only a path the witness filter does not
target, and one mandatory path exists. -/
def wSel : Variables := Variables.mk exCatalog [pGt2lLat] [pOrient] []

/-- Witness filter: beam_list gt1l alone. -/
def wFilter : Filter := Filter.mk none (some [gt1lName]) none false

/-- Witness selector for the invariant claim: nonempty Wanted, mandatory and
canned lists all inside Catalog plus mandatory paths. -/
def invSel : Variables := Variables.mk exCatalog [pGt2lLat] [pOrient] [pGt1lLat]

/-- Witness operation sequence mixing appends, removes, an invalid probe,
a bulk reset and read-only queries. -/
def invOps : List Op :=
  [Op.appendOp exFilter, Op.availOp true, Op.removeOp false cexFilter,
   Op.appendOp probeFilter, Op.parseOp exCatalog,
   Op.appendOp (Filter.mk none none none true),
   Op.removeOp true noFilter, Op.appendOp cexFilter]

theorem mem_insertUniq {α : Type} [DecidableEq α] (w : List α) (p a : α) :
    a ∈ insertUniq w p ↔ a ∈ w ∨ a = p := by
  unfold insertUniq
  split
  · constructor
    · exact Or.inl
    · rintro (h | rfl)
      · exact h
      · assumption
  · simp [List.mem_append]
theorem mem_addAll {α : Type} [DecidableEq α] (ns : List α) :
    ∀ (w : List α) (a : α), a ∈ addAll w ns ↔ a ∈ w ∨ a ∈ ns := by
  induction ns with
  | nil => intro w a; simp [addAll]
  | cons n ns ih =>
      intro w a
      have h1 : addAll w (n :: ns) = addAll (insertUniq w n) ns := rfl
      rw [h1, ih (insertUniq w n) a, mem_insertUniq]
      simp [List.mem_cons]
      tauto
theorem addAll_eq_of_subset {α : Type} [DecidableEq α] (ns : List α) :
    ∀ (w : List α), (∀ p ∈ ns, p ∈ w) → addAll w ns = w := by
  induction ns with
  | nil => intro w _; rfl
  | cons n ns ih =>
      intro w h
      have hn : n ∈ w := h n (by simp)
      have h1 : addAll w (n :: ns) = addAll (insertUniq w n) ns := rfl
      have h2 : insertUniq w n = w := by simp [insertUniq, hn]
      rw [h1, h2]
      exact ih w fun p hp => h p (by simp [hp])
theorem nodup_insertUniq {α : Type} [DecidableEq α] (w : List α) (p : α)
    (h : w.Nodup) : (insertUniq w p).Nodup := by
  unfold insertUniq
  split
  · exact h
  · simp [List.nodup_append, h]
    assumption
theorem nodup_addAll {α : Type} [DecidableEq α] (ns : List α) :
    ∀ (w : List α), w.Nodup → (addAll w ns).Nodup := by
  induction ns with
  | nil => intro w h; exact h
  | cons n ns ih =>
      intro w h
      exact ih (insertUniq w n) (nodup_insertUniq w n h)
theorem mem_firstDedup {α : Type} [DecidableEq α] (xs : List α) (a : α) :
    a ∈ firstDedup xs ↔ a ∈ xs := by
  simp [firstDedup, mem_addAll]
theorem nodup_firstDedup {α : Type} [DecidableEq α] (xs : List α) :
    (firstDedup xs).Nodup :=
  nodup_addAll xs [] List.nodup_nil
theorem splitSegs_ne_nil (cs : List Char) : splitSegs cs ≠ [] := by
  cases cs with
  | nil => simp [splitSegs]
  | cons c rest =>
      unfold splitSegs
      split
      · simp
      · split <;> simp
theorem joinSegs_splitSegs (cs : List Char) : joinSegs (splitSegs cs) = cs := by
  induction cs with
  | nil => rfl
  | cons c rest ih =>
      unfold splitSegs
      cases h : splitSegs rest with
      | nil => exact absurd h (splitSegs_ne_nil rest)
      | cons s ss =>
          rw [h] at ih
          by_cases hc : c = slash
          · simp [hc, joinSegs, ih]
          · simp [hc]
            cases ss with
            | nil =>
                simp [joinSegs] at ih
                simp [joinSegs, ih]
            | cons t ts =>
                simp [joinSegs] at ih ⊢
                simp [ih]
theorem segsOf_ne_nil (p : String) : segsOf p ≠ [] := by
  simp [segsOf]
  exact splitSegs_ne_nil p.data
theorem joinPath_segsOf (p : String) : joinPath (segsOf p) = p := by
  have h1 : (segsOf p).map String.data = splitSegs p.data := by
    simp [segsOf, List.map_map]
    exact List.map_id (splitSegs p.data)
  have h2 : joinPath (segsOf p) = String.mk (joinSegs (splitSegs p.data)) := by
    rw [joinPath, h1]
  rw [h2, joinSegs_splitSegs]
theorem dropLast_append_getLastD {α : Type} :
    ∀ (l : List α) (d : α), l ≠ [] → l.dropLast ++ [l.getLastD d] = l
  | [], _, h => absurd rfl h
  | [a], _, _ => rfl
  | a :: b :: t, d, _ => by
      have ih := dropLast_append_getLastD (b :: t) a (by simp)
      simp only [List.getLastD_cons] at ih
      simp only [List.dropLast_cons₂, List.getLastD_cons, List.cons_append]
      rw [ih]
theorem appendVars_frame (f : Filter) (s : Variables) :
    (appendVars f s).1.avail = s.avail ∧
      (appendVars f s).1.mandatory = s.mandatory ∧
      (appendVars f s).1.canned = s.canned := by
  unfold appendVars
  split <;> exact ⟨rfl, rfl, rfl⟩
theorem removeVars_frame (a : Bool) (f : Filter) (s : Variables) :
    (removeVars a f s).1.avail = s.avail ∧
      (removeVars a f s).1.mandatory = s.mandatory ∧
      (removeVars a f s).1.canned = s.canned := by
  unfold removeVars
  split
  · exact ⟨rfl, rfl, rfl⟩
  · split <;> exact ⟨rfl, rfl, rfl⟩
theorem mem_appendVars (f : Filter) (s : Variables) (q : String)
    (hv : isInvalid f = false) :
    q ∈ (appendVars f s).1.wanted ↔
      q ∈ s.wanted ∨ q ∈ s.mandatory ∨
        (f.defaults = true ∧ q ∈ s.canned) ∨
        (q ∈ s.avail ∧ pathMatch f q = true) := by
  simp only [appendVars, hv, Bool.false_eq_true, if_false, mem_addAll,
    List.mem_append, List.mem_filter]
  cases hd : f.defaults <;> simp <;> tauto
theorem step_frame (o : Op) (s : Variables) :
    (step o s).avail = s.avail ∧ (step o s).mandatory = s.mandatory ∧
      (step o s).canned = s.canned := by
  cases o with
  | appendOp f => exact appendVars_frame f s
  | removeOp a f => exact removeVars_frame a f s
  | availOp _ => exact ⟨rfl, rfl, rfl⟩
  | parseOp _ => exact ⟨rfl, rfl, rfl⟩
theorem run_frame (ops : List Op) :
    ∀ s : Variables, (run ops s).avail = s.avail ∧
      (run ops s).mandatory = s.mandatory ∧ (run ops s).canned = s.canned := by
  induction ops with
  | nil => intro s; exact ⟨rfl, rfl, rfl⟩
  | cons o rest ih =>
      intro s
      have hs := step_frame o s
      have hr := ih (step o s)
      exact ⟨hr.1.trans hs.1, hr.2.1.trans hs.2.1, hr.2.2.trans hs.2.2⟩
theorem parse_snoc (l : List String) (p : String) :
    parse_var_list (l ++ [p]) = insertGrouped (parse_var_list l) p := by
  simp [parse_var_list, List.foldl_append]
theorem firstDedup_snoc {α : Type} [DecidableEq α] (l : List α) (x : α) :
    firstDedup (l ++ [x]) = insertUniq (firstDedup l) x := by
  simp [firstDedup, addAll, List.foldl_append]
theorem groupedSpec_keys (l : List String) :
    (groupedSpec l).map Prod.fst = firstDedup (l.map varName) := by
  simp only [groupedSpec, List.map_map]
  exact List.map_id (firstDedup (l.map varName))
theorem groupedSpec_snoc (l : List String) (p : String) :
    groupedSpec (l ++ [p]) = insertGrouped (groupedSpec l) p := by
  by_cases hmem : varName p ∈ l.map varName
  · have hfd : varName p ∈ firstDedup (l.map varName) :=
      (mem_firstDedup (l.map varName) (varName p)).mpr hmem
    have hkeys : firstDedup ((l ++ [p]).map varName) =
        firstDedup (l.map varName) := by
      rw [List.map_append, List.map_singleton, firstDedup_snoc]
      simp [insertUniq, hfd]
    have hcond : varName p ∈ (groupedSpec l).map Prod.fst := by
      rw [groupedSpec_keys]; exact hfd
    unfold insertGrouped
    rw [if_pos hcond]
    unfold groupedSpec
    rw [hkeys, List.map_map]
    apply List.map_congr_left
    intro n _
    by_cases hnp : n = varName p
    · subst hnp
      simp [List.filter_append, List.filter_cons]
    · have hpn : ¬(varName p = n) := fun h => hnp h.symm
      simp [List.filter_append, List.filter_cons, hnp, hpn]
  · have hfd : varName p ∉ firstDedup (l.map varName) := fun h =>
      hmem ((mem_firstDedup (l.map varName) (varName p)).mp h)
    have hkeys : firstDedup ((l ++ [p]).map varName) =
        firstDedup (l.map varName) ++ [varName p] := by
      rw [List.map_append, List.map_singleton, firstDedup_snoc]
      simp [insertUniq, hfd]
    have hcond : varName p ∉ (groupedSpec l).map Prod.fst := by
      rw [groupedSpec_keys]; exact hfd
    unfold insertGrouped
    rw [if_neg hcond]
    unfold groupedSpec
    rw [hkeys, List.map_append, List.map_singleton]
    have hnil : l.filter (fun q => decide (varName q = varName p)) = [] := by
      rw [List.filter_eq_nil_iff]
      intro q hq
      simp only [decide_eq_true_eq]
      intro h
      exact hmem (h ▸ List.mem_map_of_mem varName hq)
    congr 1
    · apply List.map_congr_left
      intro n hn
      have hnp : ¬(varName p = n) := by
        intro h
        exact hfd (h ▸ hn)
      simp [List.filter_append, List.filter_cons, hnp]
    · simp [List.filter_append, List.filter_cons, hnil]
theorem parse_eq_groupedSpec (paths : List String) :
    parse_var_list paths = groupedSpec paths := by
  induction paths using List.reverseRecOn with
  | nil => rfl
  | append_singleton l p ih => rw [parse_snoc, ih, groupedSpec_snoc]
/-- Claim C1: when var_list and a keyword/beam list are both supplied,
append adds a catalog Path exactly when it contains at least one listed
variable name AND at least one listed beam/keyword segment (OR within a
category, AND across categories); with a single category supplied it
matches on that category alone; and on the three-path example catalog,
append with var_list latitude and beam_list gt1l puts
gt1l/land_ice_segments/latitude into Wanted and adds neither of the other
two paths. -/
theorem append_and_or_semantics :
    (∀ (s : Variables) (vs bs : List String) (q : String),
        q ∈ (appendVars (Filter.mk (some vs) (some bs) none false) s).1.wanted ↔
          q ∈ s.wanted ∨ q ∈ s.mandatory ∨
            (q ∈ s.avail ∧ (∃ v ∈ vs, varName q = v) ∧
              (∃ b ∈ bs, b ∈ segsOf q))) ∧
    (∀ (s : Variables) (vs : List String) (q : String),
        q ∈ (appendVars (Filter.mk (some vs) none none false) s).1.wanted ↔
          q ∈ s.wanted ∨ q ∈ s.mandatory ∨
            (q ∈ s.avail ∧ ∃ v ∈ vs, varName q = v)) ∧
    (∀ (s : Variables) (bs : List String) (q : String),
        q ∈ (appendVars (Filter.mk none (some bs) none false) s).1.wanted ↔
          q ∈ s.wanted ∨ q ∈ s.mandatory ∨
            (q ∈ s.avail ∧ ∃ b ∈ bs, b ∈ segsOf q)) ∧
    (appendVars exFilter exSel).1.wanted = [pGt1lLat] ∧
    pGt1lLon ∉ (appendVars exFilter exSel).1.wanted ∧
    pGt2lLat ∉ (appendVars exFilter exSel).1.wanted := by
  refine ⟨?_, ?_, ?_, by decide, by decide, by decide⟩
  · intro s vs bs q
    rw [mem_appendVars (Filter.mk (some vs) (some bs) none false) s q rfl]
    simp [pathMatch, kwCriteria, varMatch, segMatch, List.any_eq_true]
  · intro s vs q
    rw [mem_appendVars (Filter.mk (some vs) none none false) s q rfl]
    simp [pathMatch, kwCriteria, varMatch, List.any_eq_true]
  · intro s bs q
    rw [mem_appendVars (Filter.mk none (some bs) none false) s q rfl]
    simp [pathMatch, kwCriteria, segMatch, List.any_eq_true]

/-- Claim C2: for every selector state, append with the empty-string keyword
probe fails with InvalidFilter carrying the enumeration of every valid
keyword/beam segment available in the Catalog and leaves the selector (in
particular Wanted) unchanged; append errors exactly on invalid filters, and
on the error branch nothing is mutated. -/
theorem append_empty_keyword_probe (s : Variables) :
    (appendVars probeFilter s).1 = s ∧
    (appendVars probeFilter s).2 =
      some (VarError.invalidFilter (catKwSegs s)) ∧
    (∀ k, k ∈ catKwSegs s ↔ ∃ p ∈ s.avail, k ∈ kwSegs p) ∧
    (∀ f, ((appendVars f s).2).isSome = isInvalid f) ∧
    (∀ f, (appendVars f s).1 = s ∨ (appendVars f s).2 = none) := by
  refine ⟨rfl, rfl, ?_, ?_, ?_⟩
  · intro k
    rw [catKwSegs, mem_firstDedup]
    simp only [List.mem_flatten, List.mem_map]
    constructor
    · rintro ⟨l, ⟨p, hp, rfl⟩, hk⟩
      exact ⟨p, hp, hk⟩
    · rintro ⟨p, hp, hk⟩
      exact ⟨kwSegs p, ⟨p, hp, rfl⟩, hk⟩
  · intro f
    cases h : isInvalid f <;> simp [appendVars, h]
  · intro f
    cases h : isInvalid f
    · right
      simp [appendVars, h]
    · left
      simp [appendVars, h]

/-- Claim C3 counterexample: with Wanted already holding
gt1l/land_ice_segments/latitude (not a mandatory path), append with
var_list latitude followed by remove with the same filter empties Wanted
instead of restoring it, so the round trip does not restore the pre-append
Wanted set even though the lost path is not mandatory. -/
theorem append_remove_round_trip_cex :
    ((removeVars false cexFilter (appendVars cexFilter cexSel).1).1).wanted ≠
        cexSel.wanted ∧
      pGt1lLat ∈ cexSel.wanted ∧
      pGt1lLat ∉
        ((removeVars false cexFilter (appendVars cexFilter cexSel).1).1).wanted ∧
      pGt1lLat ∉ cexSel.mandatory := by
  decide

/-- Claim C3 (amended): for every valid filter F and every Wanted state
containing no path targeted by F, append(F) followed by remove(F) yields
exactly the prior Wanted set together with the mandatory paths F does not
target (remove never deletes mandatory paths whose criteria do not target
them). -/
theorem append_remove_round_trip_amended (s : Variables) (f : Filter)
    (hv : isInvalid f = false)
    (hw : ∀ p ∈ s.wanted, toRemove f s p = false) (q : String) :
    q ∈ ((removeVars false f (appendVars f s).1).1).wanted ↔
      q ∈ s.wanted ∨ (q ∈ s.mandatory ∧ toRemove f s q = false) := by
  have hcan : (appendVars f s).1.canned = s.canned := (appendVars_frame f s).2.2
  have hrem : ∀ p, toRemove f (appendVars f s).1 p = toRemove f s p := by
    intro p
    simp [toRemove, hcan]
  have hmem : ∀ p, p ∈ (appendVars f s).1.wanted ↔
      p ∈ s.wanted ∨ p ∈ s.mandatory ∨ (f.defaults = true ∧ p ∈ s.canned) ∨
        (p ∈ s.avail ∧ pathMatch f p = true) :=
    fun p => mem_appendVars f s p hv
  simp only [removeVars, hv, Bool.false_eq_true, if_false, Bool.true_eq_false,
    List.mem_filter, Bool.not_eq_true', hrem, hmem]
  constructor
  · rintro ⟨hin, hnr⟩
    rcases hin with h | h | ⟨hd, hc⟩ | ⟨_, hm⟩
    · exact Or.inl h
    · exact Or.inr ⟨h, hnr⟩
    · rw [toRemove, hd] at hnr
      simp [hc] at hnr
    · rw [toRemove, hm] at hnr
      simp at hnr
  · rintro (h | ⟨hm, hnr⟩)
    · exact ⟨Or.inl h, hw q h⟩
    · exact ⟨Or.inr (Or.inl hm), hnr⟩

/-- Witness for the amended round-trip claim at a concrete selector whose
Wanted set is untargeted by the filter. -/
theorem append_remove_round_trip_amended_w :
    pGt1lLat ∈
        ((removeVars false wFilter (appendVars wFilter wSel).1).1).wanted ↔
      pGt1lLat ∈ wSel.wanted ∨
        (pGt1lLat ∈ wSel.mandatory ∧ toRemove wFilter wSel pGt1lLat = false) :=
  append_remove_round_trip_amended wSel wFilter (by decide) (by decide) pGt1lLat

/-- Claim C4: append is idempotent — applying the same filter twice in
succession yields exactly the selector state of applying it once. -/
theorem append_idempotent (f : Filter) (s : Variables) :
    (appendVars f (appendVars f s).1).1 = (appendVars f s).1 := by
  have key : ∀ (w ns : List String), addAll (addAll w ns) ns = addAll w ns :=
    fun w ns => addAll_eq_of_subset ns (addAll w ns)
      fun p hp => (mem_addAll ns w p).mpr (Or.inr hp)
  cases h : isInvalid f
  · simp [appendVars, h, key]
  · simp [appendVars, h]

theorem step_wanted_inv (o : Op) (s : Variables)
    (hc : ∀ p ∈ s.canned, p ∈ s.avail ++ s.mandatory)
    (hw : ∀ p ∈ s.wanted, p ∈ s.avail ++ s.mandatory)
    (hn : s.wanted.Nodup) :
    (∀ p ∈ (step o s).wanted, p ∈ s.avail ++ s.mandatory) ∧
      (step o s).wanted.Nodup := by
  cases o with
  | availOp b => exact ⟨hw, hn⟩
  | parseOp paths => exact ⟨hw, hn⟩
  | appendOp f =>
      cases h : isInvalid f
      · constructor
        · intro p hp
          rcases (mem_appendVars f s p h).mp hp with h1 | h1 | ⟨_, h1⟩ | ⟨h1, _⟩
          · exact hw p h1
          · exact List.mem_append_right s.avail h1
          · exact hc p h1
          · exact List.mem_append_left s.mandatory h1
        · have hgoal : (appendVars f s).1.wanted =
              addAll s.wanted
                (s.mandatory ++ (if f.defaults then s.canned else []) ++
                  s.avail.filter (pathMatch f)) := by
            simp [appendVars, h]
          show ((appendVars f s).1).wanted.Nodup
          rw [hgoal]
          exact nodup_addAll _ s.wanted hn
      · have heq : (appendVars f s).1 = s := by simp [appendVars, h]
        show (∀ p ∈ (appendVars f s).1.wanted, p ∈ s.avail ++ s.mandatory) ∧
          (appendVars f s).1.wanted.Nodup
        rw [heq]
        exact ⟨hw, hn⟩
  | removeOp a f =>
      cases a
      · cases h : isInvalid f
        · have hgoal : (removeVars false f s).1.wanted =
              s.wanted.filter fun p => !(toRemove f s p) := by
            simp [removeVars, h]
          show (∀ p ∈ (removeVars false f s).1.wanted,
              p ∈ s.avail ++ s.mandatory) ∧ (removeVars false f s).1.wanted.Nodup
          rw [hgoal]
          constructor
          · intro p hp
            exact hw p (List.mem_filter.mp hp).1
          · exact hn.filter _
        · have heq : (removeVars false f s).1 = s := by simp [removeVars, h]
          show (∀ p ∈ (removeVars false f s).1.wanted,
              p ∈ s.avail ++ s.mandatory) ∧ (removeVars false f s).1.wanted.Nodup
          rw [heq]
          exact ⟨hw, hn⟩
      · constructor
        · intro p hp
          exact absurd hp (List.not_mem_nil p)
        · exact List.nodup_nil

/-- Claim C5: every sequence of selector operations preserves the Wanted-set
invariant — Wanted stays inside Catalog plus mandatory paths and never
contains a duplicate Path — provided the initial state satisfies it (and its
canned defaults list lies inside Catalog plus mandatory paths). -/
theorem wanted_invariant (ops : List Op) : ∀ (s : Variables),
    (∀ p ∈ s.canned, p ∈ s.avail ++ s.mandatory) →
    (∀ p ∈ s.wanted, p ∈ s.avail ++ s.mandatory) →
    s.wanted.Nodup →
    (∀ p ∈ (run ops s).wanted, p ∈ s.avail ++ s.mandatory) ∧
      (run ops s).wanted.Nodup := by
  induction ops with
  | nil => exact fun s _ hw hn => ⟨hw, hn⟩
  | cons o rest ih =>
      intro s hc hw hn
      have hsi := step_wanted_inv o s hc hw hn
      have hf := step_frame o s
      have hc2 : ∀ p ∈ (step o s).canned,
          p ∈ (step o s).avail ++ (step o s).mandatory := by
        rw [hf.1, hf.2.1, hf.2.2]
        exact hc
      have hw2 : ∀ p ∈ (step o s).wanted,
          p ∈ (step o s).avail ++ (step o s).mandatory := by
        rw [hf.1, hf.2.1]
        exact hsi.1
      have hmain := ih (step o s) hc2 hw2 hsi.2
      rw [hf.1, hf.2.1] at hmain
      exact hmain

/-- Witness for the Wanted-set invariant on a concrete selector and a mixed
concrete operation sequence. -/
theorem wanted_invariant_w :
    (∀ p ∈ (run invOps invSel).wanted, p ∈ invSel.avail ++ invSel.mandatory) ∧
      (run invOps invSel).wanted.Nodup :=
  wanted_invariant invOps invSel (by decide) (by decide) (by decide)

/-- Claim C6: remove with the all flag empties the Wanted set regardless of
prior state, and remove with no criteria and the all flag unset is a
no-op. -/
theorem remove_all_and_noop (s : Variables) (f : Filter) :
    ((removeVars true f s).1).wanted = [] ∧
      removeVars false noFilter s = (s, none) := by
  constructor
  · rfl
  · have hv : isInvalid noFilter = false := rfl
    have h1 : (fun p => !(toRemove noFilter s p)) = fun _ : String => true := by
      funext p
      simp [toRemove, noFilter, pathMatch, kwCriteria]
    simp [removeVars, hv, h1]

/-- Claim C7: parse groups a sequence of Path strings by final segment —
one entry per distinct variable name in first-occurrence order, carrying
the ordered list of the full input Paths ending in that name — and does not
mutate the selector state. -/
theorem parse_var_list_groups (paths : List String) :
    parse_var_list paths = groupedSpec paths ∧
      ∀ s : Variables, step (Op.parseOp paths) s = s :=
  ⟨parse_eq_groupedSpec paths, fun _ => rfl⟩

/-- Claim C8: avail with options returns three deduplicated sets, every
catalog Path splits into segments each belonging to the appropriate set
(its variable name in the first, each non-final segment in the beam set or
the keyword set according to the beam-pattern recognizer), and rejoining
the per-Path segments reconstructs the Path exactly. -/
theorem avail_options_lossless (s : Variables) (p : String)
    (hp : p ∈ s.avail) :
    ((availOptions s).1.Nodup ∧ (availOptions s).2.1.Nodup ∧
        (availOptions s).2.2.Nodup) ∧
      varName p ∈ (availOptions s).1 ∧
      (∀ k ∈ kwSegs p,
        if isBeam k then k ∈ (availOptions s).2.2
        else k ∈ (availOptions s).2.1) ∧
      joinPath (kwSegs p ++ [varName p]) = p := by
  refine ⟨⟨nodup_firstDedup _, nodup_firstDedup _, nodup_firstDedup _⟩,
    ?_, ?_, ?_⟩
  · show varName p ∈ varSetOf s
    rw [varSetOf, mem_firstDedup]
    exact List.mem_map_of_mem varName hp
  · intro k hk
    have hmem : k ∈ (s.avail.map kwSegs).flatten :=
      List.mem_flatten.mpr ⟨kwSegs p, List.mem_map_of_mem kwSegs hp, hk⟩
    cases hb : isBeam k
    · simp only [hb, Bool.false_eq_true, if_false]
      show k ∈ kwdSetOf s
      rw [kwdSetOf, mem_firstDedup]
      exact List.mem_filter.mpr ⟨hmem, by simp [hb]⟩
    · simp only [hb, if_true]
      show k ∈ beamSetOf s
      rw [beamSetOf, mem_firstDedup]
      exact List.mem_filter.mpr ⟨hmem, hb⟩
  · have hsegs : kwSegs p ++ [varName p] = segsOf p := by
      rw [kwSegs, varName]
      exact dropLast_append_getLastD (segsOf p) (String.mk []) (segsOf_ne_nil p)
    rw [hsegs, joinPath_segsOf]

/-- Witness for the avail-options decomposition at a concrete catalog and
Path. -/
theorem avail_options_lossless_w :
    ((availOptions exSel).1.Nodup ∧ (availOptions exSel).2.1.Nodup ∧
        (availOptions exSel).2.2.Nodup) ∧
      varName pGt1lLat ∈ (availOptions exSel).1 ∧
      (∀ k ∈ kwSegs pGt1lLat,
        if isBeam k then k ∈ (availOptions exSel).2.2
        else k ∈ (availOptions exSel).2.1) ∧
      joinPath (kwSegs pGt1lLat ++ [varName pGt1lLat]) = pGt1lLat :=
  avail_options_lossless exSel pGt1lLat (by decide)

/-- Claim C9: the Catalog is immutable — after any sequence of selector
operations with any arguments, the Catalog (and likewise the mandatory and
canned lists) is identical to what it was before; only Wanted may change. -/
theorem catalog_immutable (ops : List Op) (s : Variables) :
    (run ops s).avail = s.avail ∧ (run ops s).mandatory = s.mandatory ∧
      (run ops s).canned = s.canned :=
  run_frame ops s

end Icepyx
